import Mathlib

/-!
Verification of the document-persistence and index-reconciliation core of
obsidian-sync-server.  The canonical source is src/index.js; the earlier
variant that deletes empty documents (src/unnamed/part_000) is embedded
separately under the namespace `Variant0`.

Modelling conventions:
* JavaScript strings are lists of Unicode code points (`List Nat`); byte
  sequences are `List Nat` with elements below 256.
* The MinIO object store is a partial map from keys to byte sequences.
* The runtime is a single-threaded event loop: each async function is a
  sequence of synchronous segments separated by `await` points.  A call
  that runs without interleaving is one atomic state transformer; for
  interleaving-sensitive properties the two synchronous segments of
  `saveToMinIO` around its awaited `putObject` are modelled separately
  (`saveBegin` / `saveFinish`) inside a small-step relation.
-/

set_option maxRecDepth 8000

/-! ## RoomNameCodec: `roomToPath` (src/index.js lines 25-33) and the
spec-described inverse encoder. -/

/-- One character of the two replaces in `roomToPath`: dash becomes plus,
underscore becomes slash. -/
def replDash (c : Nat) : Nat :=
  if c = 45 then 43 else if c = 95 then 47 else c

/-- The URL-safe base64 alphabet (`-` and `_` substituted for `+` and `/`). -/
def b64urlCharOfSextet (n : Nat) : Nat :=
  if n < 26 then 65 + n
  else if n < 52 then 71 + n
  else if n < 62 then n - 4
  else if n = 62 then 45
  else 95

/-- Regroup a byte sequence into base64 sextets (no padding emitted). -/
def sextets : List Nat → List Nat
  | x :: y :: z :: rest =>
      x / 4 :: ((x % 4) * 16 + y / 16) :: ((y % 16) * 4 + z / 64) :: (z % 64) :: sextets rest
  | [x, y] => [x / 4, (x % 4) * 16 + y / 16, (y % 16) * 4]
  | [x] => [x / 4, (x % 4) * 16]
  | [] => []

/-- Node's base64 decode table: the standard and the URL-safe alphabet
are both accepted by `Buffer.from(s, 'base64')`. -/
def sextetOfChar (c : Nat) : Option Nat :=
  if 65 ≤ c ∧ c ≤ 90 then some (c - 65)
  else if 97 ≤ c ∧ c ≤ 122 then some (c - 71)
  else if 48 ≤ c ∧ c ≤ 57 then some (c + 4)
  else if c = 43 ∨ c = 45 then some 62
  else if c = 47 ∨ c = 95 then some 63
  else none

/-- The scan performed by `Buffer.from(s, 'base64')`: characters outside the
alphabet are skipped (Node's decoder is lenient and never throws), and a
padding character `'='` (code 61) ends the data. -/
def takeB64 : List Nat → List Nat
  | [] => []
  | c :: rest =>
      if c = 61 then []
      else
        match sextetOfChar c with
        | some v => v :: takeB64 rest
        | none => takeB64 rest

/-- Reassemble bytes from base64 sextets; a trailing lone sextet carries
fewer than 8 bits and is dropped, as Node does. -/
def bytesOfSextets : List Nat → List Nat
  | a :: b :: c :: d :: rest =>
      (a * 4 + b / 16) :: ((b % 16) * 16 + c / 4) :: ((c % 4) * 64 + d) :: bytesOfSextets rest
  | [a, b, c] => [a * 4 + b / 16, (b % 16) * 16 + c / 4]
  | [a, b] => [a * 4 + b / 16]
  | _ => []

/-- UTF-8 encoding of one code point. -/
def utf8EncodeChar (c : Nat) : List Nat :=
  if c < 128 then [c]
  else if c < 2048 then [192 + c / 64, 128 + c % 64]
  else if c < 65536 then [224 + c / 4096, 128 + c / 64 % 64, 128 + c % 64]
  else [240 + c / 262144, 128 + c / 4096 % 64, 128 + c / 64 % 64, 128 + c % 64]

/-- UTF-8 encoding of a code-point sequence. -/
def utf8Encode : List Nat → List Nat
  | [] => []
  | c :: rest => utf8EncodeChar c ++ utf8Encode rest

/-- Decode one UTF-8 sequence: given a lead byte and the remaining bytes,
return the code point and the rest, or `none` for a truncated, overlong,
surrogate or out-of-range sequence. -/
def utf8Step (b : Nat) (rest : List Nat) : Option (Nat × List Nat) :=
  if b < 128 then some (b, rest)
  else if b < 192 then none
  else if b < 224 then
    match rest with
    | b1 :: rest2 =>
        if 128 ≤ b1 ∧ b1 < 192 then
          if (b - 192) * 64 + (b1 - 128) < 128 then none
          else some ((b - 192) * 64 + (b1 - 128), rest2)
        else none
    | [] => none
  else if b < 240 then
    match rest with
    | b1 :: b2 :: rest2 =>
        if (128 ≤ b1 ∧ b1 < 192) ∧ (128 ≤ b2 ∧ b2 < 192) then
          if (b - 224) * 4096 + (b1 - 128) * 64 + (b2 - 128) < 2048 ∨
              (55296 ≤ (b - 224) * 4096 + (b1 - 128) * 64 + (b2 - 128) ∧
                (b - 224) * 4096 + (b1 - 128) * 64 + (b2 - 128) < 57344) then none
          else some ((b - 224) * 4096 + (b1 - 128) * 64 + (b2 - 128), rest2)
        else none
    | _ => none
  else if b < 248 then
    match rest with
    | b1 :: b2 :: b3 :: rest2 =>
        if (128 ≤ b1 ∧ b1 < 192) ∧ (128 ≤ b2 ∧ b2 < 192) ∧ (128 ≤ b3 ∧ b3 < 192) then
          if (b - 240) * 262144 + (b1 - 128) * 4096 + (b2 - 128) * 64 + (b3 - 128) < 65536 ∨
              1114112 ≤ (b - 240) * 262144 + (b1 - 128) * 4096 + (b2 - 128) * 64 + (b3 - 128)
            then none
          else some ((b - 240) * 262144 + (b1 - 128) * 4096 + (b2 - 128) * 64 + (b3 - 128), rest2)
        else none
    | _ => none
  else none

/-- Worker for `utf8Decode`; the fuel argument (instantiated with the input
length, which suffices since every step consumes at least one byte) only
makes the recursion structural. -/
def utf8DecodeAux : Nat → List Nat → Option (List Nat)
  | _, [] => some []
  | 0, _ :: _ => none
  | fuel + 1, b :: rest =>
      match utf8Step b rest with
      | some (c, rest2) =>
          match utf8DecodeAux fuel rest2 with
          | some cs => some (c :: cs)
          | none => none
      | none => none

/-- Strict UTF-8 decoding, rejecting truncated, overlong, surrogate and
out-of-range sequences; this is the decoding `decodeURIComponent` applies
to the bytes of its percent escapes (`none` models a thrown `URIError`). -/
def utf8Decode (bs : List Nat) : Option (List Nat) := utf8DecodeAux bs.length bs

/-- Worker for `utf8DecodeReplace`, fuelled like `utf8DecodeAux`: a byte
at which `utf8Step` fails yields the replacement character 65533 and
decoding resynchronises at the next byte. -/
def utf8DecodeReplaceAux : Nat → List Nat → List Nat
  | _, [] => []
  | 0, _ :: _ => []
  | fuel + 1, b :: rest =>
      match utf8Step b rest with
      | some (c, rest2) => c :: utf8DecodeReplaceAux fuel rest2
      | none => 65533 :: utf8DecodeReplaceAux fuel rest

/-- Total UTF-8 decoding with U+FFFD (65533) replacement, as performed by
`Buffer.prototype.toString('utf-8')`. -/
def utf8DecodeReplace (bs : List Nat) : List Nat := utf8DecodeReplaceAux bs.length bs

/-- The characters `encodeURIComponent` leaves unescaped:
letters, digits, and `- _ . ! ~ * ' ( )`. -/
def isUnreserved (c : Nat) : Bool :=
  decide ((65 ≤ c ∧ c ≤ 90) ∨ (97 ≤ c ∧ c ≤ 122) ∨ (48 ≤ c ∧ c ≤ 57) ∨
    c = 45 ∨ c = 95 ∨ c = 46 ∨ c = 33 ∨ c = 126 ∨ c = 42 ∨ c = 39 ∨ c = 40 ∨ c = 41)

/-- Uppercase hexadecimal digit, as emitted by `encodeURIComponent`. -/
def hexDigitChar (n : Nat) : Nat := if n < 10 then 48 + n else 55 + n

/-- One percent escape `%XY` for a byte. -/
def percentEncodeByte (b : Nat) : List Nat := [37, hexDigitChar (b / 16), hexDigitChar (b % 16)]

/-- Percent escapes for a whole byte sequence. -/
def pctBytes : List Nat → List Nat
  | [] => []
  | b :: rest => percentEncodeByte b ++ pctBytes rest

/-- `encodeURIComponent`, producing the code sequence of its (ASCII) result:
an unreserved character stays, any other character contributes a percent
escape per byte of its UTF-8 encoding. -/
def percentEncode : List Nat → List Nat
  | [] => []
  | c :: rest => (if isUnreserved c then [c] else pctBytes (utf8EncodeChar c)) ++ percentEncode rest

/-- Value of one hexadecimal digit character. -/
def hexVal (c : Nat) : Option Nat :=
  if 48 ≤ c ∧ c ≤ 57 then some (c - 48)
  else if 65 ≤ c ∧ c ≤ 70 then some (c - 55)
  else if 97 ≤ c ∧ c ≤ 102 then some (c - 87)
  else none

/-- Percent-decode to a byte sequence: a `%XY` escape contributes its byte,
a literal character contributes its UTF-8 bytes; `none` models a malformed
escape (which makes `decodeURIComponent` throw `URIError`). -/
def percentDecodeBytes : List Nat → Option (List Nat)
  | [] => some []
  | c :: rest =>
      if c = 37 then
        match rest with
        | h :: l :: rest2 =>
            match hexVal h, hexVal l with
            | some x, some y =>
                match percentDecodeBytes rest2 with
                | some bs => some ((16 * x + y) :: bs)
                | none => none
            | _, _ => none
        | _ => none
      else
        match percentDecodeBytes rest with
        | some bs => some (utf8EncodeChar c ++ bs)
        | none => none

/-- `decodeURIComponent`; `none` models a thrown `URIError`. -/
def decodeURIComponent (s : List Nat) : Option (List Nat) :=
  match percentDecodeBytes s with
  | some bs => utf8Decode bs
  | none => none

/-- `roomToPath` (src/index.js lines 25-33): undo the URL-safe alphabet
substitution, restore `'='` padding by length mod 4, base64-decode
(`Buffer.from(base64, 'base64')`, which is lenient), read the bytes as
UTF-8 text (`toString('utf-8')`, with replacement), then URI-decode. -/
def roomToPath (room : List Nat) : Option (List Nat) :=
  let b64 := room.map replDash
  let padded := b64 ++ List.replicate ((4 - b64.length % 4) % 4) 61
  decodeURIComponent (utf8DecodeReplace (bytesOfSextets (takeB64 padded)))

/-- Modelled from the spec: the path→room encoder (`pathToRoom`) lives in the
client plugin and is not part of this repository's src; spec §4.1 defines the
encoding as UTF-8-encode, then percent-encode, then base64url-encode without
padding (`-`/`_` substituted for `+`/`/`). -/
def pathToRoom (p : List Nat) : List Nat :=
  (sextets (percentEncode p)).map b64urlCharOfSextet

/-- A valid path is a sequence of Unicode scalar values (a well-formed
JavaScript string: no lone surrogates). -/
def ValidPath (p : List Nat) : Prop :=
  ∀ c ∈ p, c < 1114112 ∧ ¬(55296 ≤ c ∧ c < 57344)

/-! ## The `GET /files` listing (src/index.js lines 188-227) -/

/-- The reserved room name `__file_index__`, as code points. -/
def fileIndexRoom : List Nat := [95, 95, 102, 105, 108, 101, 95, 105, 110, 100, 101, 120, 95, 95]

/-- The files computation of the `GET /files` handler: for each listed object
key (MinIO lists keys in lexicographic order), keep keys of the form
`yjs/<room>.yjs`, skip the reserved index room, decode the room with
`roomToPath` and include the resulting path; a room whose decoding throws is
logged and skipped without aborting the listing.  The surrounding HTTP
plumbing (status 200, JSON body) is outside this model. -/
def filesOf : List (List Nat) → List (List Nat)
  | [] => []
  | k :: rest =>
      if k.take 4 = [121, 106, 115, 47] ∧ k.drop (k.length - 4) = [46, 121, 106, 115] then
        if (k.drop 4).take (k.length - 8) = fileIndexRoom then filesOf rest
        else
          match roomToPath ((k.drop 4).take (k.length - 8)) with
          | some p => p :: filesOf rest
          | none => filesOf rest
      else filesOf rest

/-- Object key `yjs/__file_index__.yjs`. -/
def keyIdx : List Nat := [121, 106, 115, 47] ++ fileIndexRoom ++ [46, 121, 106, 115]

/-- Object key `yjs/Zm9vLm1k.yjs` (the room decodes to `foo.md`). -/
def keyFoo : List Nat := [121, 106, 115, 47, 90, 109, 57, 118, 76, 109, 49, 107, 46, 121, 106, 115]

/-- Object key `yjs/%%%.yjs` (the malformed room of the spec scenario). -/
def keyPct : List Nat := [121, 106, 115, 47, 37, 37, 37, 46, 121, 106, 115]

/-- Object key `yjs/JQ.yjs`: the room decodes through base64 to the single
byte `%`, a malformed percent sequence, so `decodeURIComponent` throws. -/
def keyJQ : List Nat := [121, 106, 115, 47, 74, 81, 46, 121, 106, 115]

/-- The path `foo.md`, as code points. -/
def fooPath : List Nat := [102, 111, 111, 46, 109, 100]

/-! ## FileIndexReconciler: `validateFileIndex` (src/index.js lines 135-170)

Index keys are code-point lists; the metadata `type` discriminator is kept
as an Option String since reconciliation only compares it with `folder`. -/

/-- Metadata of one file-index entry; reconciliation reads only the `type`
field (`metadata?.type === 'folder'`, absent metadata gives `none`). -/
structure FEntry where
  type : Option String
deriving DecidableEq

/-- Outcome of `minioClient.statObject`: success, a not-found error
(`err.code === 'NotFound'`), or any other (transient/ambiguous) error. -/
inductive StatRes
  | found
  | notFound
  | otherErr
deriving DecidableEq

/-- Storage-key sanitisation of an index key: any character outside
`A-Za-z0-9._-` becomes an underscore (code 95). -/
def sanCode (c : Nat) : Nat :=
  if (97 ≤ c ∧ c ≤ 122) ∨ (65 ≤ c ∧ c ≤ 90) ∨ (48 ≤ c ∧ c ≤ 57) ∨ c = 46 ∨ c = 95 ∨ c = 45
  then c else 95

/-- The object key checked for a file-index entry:
`yjs/` ++ sanitised entry key ++ `.yjs`. -/
def minioKey (k : List Nat) : List Nat :=
  [121, 106, 115, 47] ++ k.map sanCode ++ [46, 121, 106, 115]

/-- The scan loop of `validateFileIndex`: walk the index entries in order,
skip entries whose `type` is `folder`, stat every other entry's object key,
and collect an entry key as orphan exactly when the stat fails with
not-found (any other stat error leaves the entry untouched).  Returns the
statted object keys and the orphan entry keys, in scan order. -/
def scanIndex (stat : List Nat → StatRes) :
    List (List Nat × FEntry) → List (List Nat) × List (List Nat)
  | [] => ([], [])
  | e :: rest =>
      let r := scanIndex stat rest
      if e.2.type = some "folder" then r
      else
        match stat (minioKey e.1) with
        | StatRes.notFound => (minioKey e.1 :: r.1, e.1 :: r.2)
        | _ => (minioKey e.1 :: r.1, r.2)

/-- Result of `validateFileIndex`: the reconciled index mapping, the object
keys that were statted, and the number of `ydoc.transact` calls made. -/
structure VRes where
  index : List (List Nat × FEntry)
  statted : List (List Nat)
  txns : Nat
deriving DecidableEq

/-- `validateFileIndex`: scan all entries, then, only when at least one
orphan was collected, delete all orphans from the index mapping inside a
single transactional mutation. -/
def validateFileIndex (stat : List Nat → StatRes) (idx : List (List Nat × FEntry)) : VRes :=
  let s := scanIndex stat idx
  { index := idx.filter (fun e => decide (¬ e.1 ∈ s.2)),
    statted := s.1,
    txns := if s.2 = [] then 0 else 1 }

/-- Entry metadata `type: file`. -/
def fileT : FEntry := ⟨some "file"⟩

/-- Entry metadata `type: folder`. -/
def folderT : FEntry := ⟨some "folder"⟩

/-- The scenario index: entries `a`, `b` (files) and `c` (folder). -/
def idxC5 : List (List Nat × FEntry) := [([97], fileT), ([98], fileT), ([99], folderT)]

/-- The scenario store: only `b`'s backing object exists. -/
def statC5 : List Nat → StatRes :=
  fun k => if k = minioKey [98] then StatRes.found else StatRes.notFound

/-- The stat function of the C6 witness: every stat fails transiently. -/
def statErrAll : List Nat → StatRes := fun _ => StatRes.otherErr

/-- The index of the C6 witness: the single file entry `a`. -/
def idxC6 : List (List Nat × FEntry) := [([97], fileT)]

/-! ## SaveCoordinator and DocumentPersistenceGateway
(src/index.js lines 68-132; the event loop is single-threaded, so each async
function is a sequence of synchronous segments separated by awaits). -/

/-- An in-memory Yjs document, abstracted to what the persistence core
reads: the text of its `content` field (used only by the `Variant0` empty
check) and the byte sequence `Y.encodeStateAsUpdate` produces. -/
structure Doc where
  content : List Nat
  enc : List Nat
deriving DecidableEq

/-- A store modification that actually took effect. -/
inductive StoreAction
  | put (key : String) (bytes : List Nat)
  | remove (key : String)
deriving DecidableEq

/-- Outcome of one awaited MinIO call: success, or an error (always caught
and only logged by the source). -/
inductive SaveOutcome
  | ok
  | err
deriving DecidableEq

/-- The object key of a document: `yjs/` ++ docName ++ `.yjs`. -/
def yjsKey (d : String) : String := "yjs/" ++ d ++ ".yjs"

/-- The process state of the persistence core: the `saveLocks` map, the
`saveTimers` map (a pending timer is its absolute deadline), the object
store contents, the live documents, the saves parked at their awaited
`putObject` (document name and the snapshot taken at save start), the
current time, and the log of store modifications. -/
structure SrvState where
  locks : String → Bool
  timers : String → Option Nat
  store : String → Option (List Nat)
  docs : String → Doc
  pending : List (String × List Nat)
  time : Nat
  log : List StoreAction

/-- The debounce quiescence window. -/
def SAVE_DEBOUNCE_MS : Nat := 3000

/-- The process state at startup: no locks, no timers, empty store, empty
log, no in-flight saves. -/
def initState : SrvState :=
  { locks := fun _ => false, timers := fun _ => none, store := fun _ => none,
    docs := fun _ => ⟨[], []⟩, pending := [], time := 0, log := [] }

/-- `saveToMinIO` (src/index.js lines 70-92) run atomically, i.e. with no
other core logic interleaved between its lock check and its finally block:
skip when a save for `docName` is already in flight; otherwise take the
snapshot and put it — the store changes only when the awaited `putObject`
succeeds, an error being caught and logged — and clear the lock, whose net
effect from an unlocked state is the identity. -/
def saveToMinIO (d : String) (doc : Doc) (o : SaveOutcome) (st : SrvState) : SrvState :=
  if st.locks d then st
  else
    match o with
    | SaveOutcome.ok =>
        { st with
            store := fun k => if k = yjsKey d then some doc.enc else st.store k,
            log := st.log ++ [StoreAction.put (yjsKey d) doc.enc] }
    | SaveOutcome.err => st

/-- `writeState` (src/index.js lines 129-131): awaits `saveToMinIO`
directly, bypassing the debounce timer. -/
def writeState (d : String) (doc : Doc) (o : SaveOutcome) (st : SrvState) : SrvState :=
  saveToMinIO d doc o st

/-- `debouncedSave` (src/index.js lines 98-106): cancel any pending timer
for `docName` and start a new one of `SAVE_DEBOUNCE_MS`. -/
def debouncedSave (d : String) (st : SrvState) : SrvState :=
  { st with
      timers := fun x => if x = d then some (st.time + SAVE_DEBOUNCE_MS) else st.timers x }

/-- Events of a deterministic single-document schedule: a mutation observed
at time `t` (the update observer registered by `bindState` calls
`debouncedSave`), and the event loop visiting the timer of `d` at time `t`
(the timer callback runs `saveToMinIO` on the current document and deletes
the timer entry — but only once the deadline has passed). -/
inductive Ev
  | update (t : Nat) (d : String) (doc : Doc)
  | fire (t : Nat) (d : String) (o : SaveOutcome)

/-- One runner step. -/
def stepEv (st : SrvState) : Ev → SrvState
  | Ev.update t d doc =>
      debouncedSave d
        { st with time := t, docs := fun x => if x = d then doc else st.docs x }
  | Ev.fire t d o =>
      let st1 := { st with time := t }
      match st1.timers d with
      | some deadline =>
          if deadline ≤ st1.time then
            let st2 := saveToMinIO d (st1.docs d) o st1
            { st2 with timers := fun x => if x = d then none else st2.timers x }
          else st1
      | none => st1

/-- Run a schedule of events. -/
def runEvs (st : SrvState) (evs : List Ev) : SrvState := evs.foldl stepEv st

/-- A state with a save for `d` in flight: lock held, stale snapshot `[1]`
parked at its await, live document now encoding `[2]`. -/
def stLocked : SrvState :=
  { initState with
      locks := fun x => if x = "d" then true else false,
      docs := fun x => if x = "d" then ⟨[], [2]⟩ else initState.docs x,
      pending := [("d", [1])] }

/-- Remove the first occurrence of `q` from a list. -/
def removeFirst (q : String × List Nat) : List (String × List Nat) → List (String × List Nat)
  | [] => []
  | x :: rest => if x = q then rest else x :: removeFirst q rest

/-- The first synchronous segment of `saveToMinIO`, up to its awaited
`putObject`: skip when locked, else set the lock and take the snapshot,
which is now in flight. -/
def saveBegin (d : String) (st : SrvState) : SrvState :=
  if st.locks d then st
  else
    { st with
        locks := fun x => if x = d then true else st.locks x,
        pending := st.pending ++ [(d, (st.docs d).enc)] }

/-- The second synchronous segment of `saveToMinIO`, once its awaited
`putObject` resolves (`o = ok`) or rejects (`o = err`, caught and logged):
record the write on success and, in the finally block, clear the lock. -/
def saveFinish (d : String) (buf : List Nat) (o : SaveOutcome) (st : SrvState) : SrvState :=
  let st1 := match o with
    | SaveOutcome.ok =>
        { st with
            store := fun k => if k = yjsKey d then some buf else st.store k,
            log := st.log ++ [StoreAction.put (yjsKey d) buf] }
    | SaveOutcome.err => st
  { st1 with
      locks := fun x => if x = d then false else st1.locks x,
      pending := removeFirst (d, buf) st1.pending }

/-- Small-step interleaving semantics of the core on the single-threaded
event loop.  `mutate` is a live edit observed by the update observer, which
then schedules a debounced save; `reconcile` is a document mutation with no
observer registered yet (`validateFileIndex` runs before registration);
`fire` is an expired debounce timer starting `saveToMinIO`; `beginWrite` is
a `writeState` call starting `saveToMinIO`; `finish` resumes a parked save
after its `putObject` settles; `tick` advances time; `bindLoad` is
`bindState`'s load, which only reads the store. -/
inductive Step : SrvState → SrvState → Prop
  | mutate (st : SrvState) (d : String) (doc : Doc) :
      Step st (debouncedSave d { st with docs := fun x => if x = d then doc else st.docs x })
  | reconcile (st : SrvState) (d : String) (doc : Doc) :
      Step st { st with docs := fun x => if x = d then doc else st.docs x }
  | fire (st : SrvState) (d : String) (tf : Nat) :
      st.timers d = some tf → tf ≤ st.time →
      Step st (saveBegin d { st with timers := fun x => if x = d then none else st.timers x })
  | beginWrite (st : SrvState) (d : String) :
      Step st (saveBegin d st)
  | finish (st : SrvState) (d : String) (buf : List Nat) (o : SaveOutcome) :
      (d, buf) ∈ st.pending → Step st (saveFinish d buf o st)
  | tick (st : SrvState) (t : Nat) :
      st.time ≤ t → Step st { st with time := t }
  | bindLoad (st : SrvState) (d : String) :
      Step st st

/-- States reachable from startup. -/
def Reachable (st : SrvState) : Prop := Relation.ReflTransGen Step initState st

/-- Number of in-flight saves for `d` in a pending list. -/
def inFlightL (d : String) (l : List (String × List Nat)) : Nat :=
  (l.filter (fun q => decide (q.1 = d))).length

/-- Number of in-flight saves for `d`. -/
def inFlight (d : String) (st : SrvState) : Nat := inFlightL d st.pending

/-- The lock invariant: for every name, at most one save is in flight, and
the `saveLocks` entry is present exactly while one is. -/
def SaveInv (st : SrvState) : Prop :=
  ∀ d, inFlight d st ≤ 1 ∧ (st.locks d = true ↔ inFlight d st = 1)

/-- A state whose store already holds a snapshot for `a`. -/
def stC2 : SrvState :=
  { initState with store := fun k => if k = yjsKey "a" then some [1] else none }

namespace Variant0

/-- `saveToMinIO` of the earlier variant (src/unnamed/part_000 lines 59-92),
run atomically: skip when locked; if the `content` text is empty and the
document is not the reserved index, remove the backing object (awaited
remove with outcome `ro`; a NoSuchKey error is ignored, others only logged)
instead of saving; otherwise put the snapshot (outcome `o`).  The lock is
set at entry and cleared in the finally block, so from an unlocked state
its net effect on the lock map is the identity. -/
def saveToMinIO (d : String) (doc : Doc) (o ro : SaveOutcome) (st : SrvState) : SrvState :=
  if st.locks d then st
  else if doc.content = [] ∧ ¬ (d = "__file_index__") then
    match ro with
    | SaveOutcome.ok =>
        { st with
            store := fun k => if k = yjsKey d then none else st.store k,
            log := st.log ++ [StoreAction.remove (yjsKey d)] }
    | SaveOutcome.err => st
  else
    match o with
    | SaveOutcome.ok =>
        { st with
            store := fun k => if k = yjsKey d then some doc.enc else st.store k,
            log := st.log ++ [StoreAction.put (yjsKey d) doc.enc] }
    | SaveOutcome.err => st

end Variant0

/-- The C10 witness document: empty `content` text, snapshot bytes `[7]`. -/
def docC10 : Doc := ⟨[], [7]⟩

/-! ## Theorems -/

/-! ## Round-trip lemmas for the codec -/

theorem sextets_lt64 : ∀ bs : List Nat, (∀ b ∈ bs, b < 256) → ∀ v ∈ sextets bs, v < 64
  | x :: y :: z :: rest, h => by
      have hx := h x (by simp)
      have hy := h y (by simp)
      have hz := h z (by simp)
      have ih := sextets_lt64 rest (fun b hb => h b (by simp [hb]))
      intro v hv
      simp only [sextets, List.mem_cons] at hv
      rcases hv with h1 | h1 | h1 | h1 | h1
      · omega
      · omega
      · omega
      · omega
      · exact ih v h1
  | [x, y], h => by
      have hx := h x (by simp)
      have hy := h y (by simp)
      intro v hv
      simp only [sextets, List.mem_cons, List.not_mem_nil, or_false] at hv
      rcases hv with h1 | h1 | h1 <;> omega
  | [x], h => by
      have hx := h x (by simp)
      intro v hv
      simp only [sextets, List.mem_cons, List.not_mem_nil, or_false] at hv
      rcases hv with h1 | h1 <;> omega
  | [], _ => by intro v hv; simp [sextets] at hv

theorem sextet_char_roundtrip :
    ∀ n < 64, sextetOfChar (replDash (b64urlCharOfSextet n)) = some n ∧
      replDash (b64urlCharOfSextet n) ≠ 61 := by
  decide

theorem takeB64_replicate : ∀ k, takeB64 (List.replicate k 61) = []
  | 0 => rfl
  | k + 1 => by simp [List.replicate, takeB64]

theorem takeB64_encoded (k : Nat) :
    ∀ l : List Nat, (∀ v ∈ l, v < 64) →
      takeB64 (l.map (fun v => replDash (b64urlCharOfSextet v)) ++ List.replicate k 61) = l
  | [], _ => by simpa using takeB64_replicate k
  | v :: rest, h => by
      have hv := h v (by simp)
      obtain ⟨h1, h2⟩ := sextet_char_roundtrip v hv
      have ih := takeB64_encoded k rest (fun u hu => h u (by simp [hu]))
      simp only [List.map_cons, List.cons_append, takeB64, h2, if_false, h1]
      exact congrArg (fun t => v :: t) ih

theorem bytesOfSextets_sextets :
    ∀ bs : List Nat, (∀ b ∈ bs, b < 256) → bytesOfSextets (sextets bs) = bs
  | x :: y :: z :: rest, h => by
      have hx := h x (by simp)
      have hy := h y (by simp)
      have hz := h z (by simp)
      have ih := bytesOfSextets_sextets rest (fun b hb => h b (by simp [hb]))
      simp only [sextets, bytesOfSextets, ih, List.cons.injEq, and_true]
      refine ⟨by omega, by omega, by omega⟩
  | [x, y], h => by
      have hx := h x (by simp)
      have hy := h y (by simp)
      simp only [sextets, bytesOfSextets, List.cons.injEq, and_true]
      refine ⟨by omega, by omega⟩
  | [x], h => by
      have hx := h x (by simp)
      simp only [sextets, bytesOfSextets, List.cons.injEq, and_true]
      omega
  | [], _ => rfl

theorem utf8Step_ascii (b : Nat) (hb : b < 128) (rest : List Nat) :
    utf8Step b rest = some (b, rest) := by
  simp [utf8Step, hb]

theorem utf8DecodeReplaceAux_ascii :
    ∀ fuel : Nat, ∀ bs : List Nat, bs.length ≤ fuel → (∀ b ∈ bs, b < 128) →
      utf8DecodeReplaceAux fuel bs = bs
  | fuel, [], _, _ => by cases fuel <;> rfl
  | 0, b :: rest, hl, _ => by simp at hl
  | fuel + 1, b :: rest, hl, h => by
      have hb := h b (by simp)
      have ih := utf8DecodeReplaceAux_ascii fuel rest (by simp at hl; omega)
        (fun u hu => h u (by simp [hu]))
      simp only [utf8DecodeReplaceAux, utf8Step_ascii b hb, ih]

theorem utf8DecodeReplace_ascii (bs : List Nat) (h : ∀ b ∈ bs, b < 128) :
    utf8DecodeReplace bs = bs :=
  utf8DecodeReplaceAux_ascii bs.length bs (by omega) h

theorem hexVal_hexDigitChar : ∀ n < 16, hexVal (hexDigitChar n) = some n := by
  decide

theorem percentDecodeBytes_pctBytes :
    ∀ bs rest : List Nat, (∀ b ∈ bs, b < 256) →
      percentDecodeBytes (pctBytes bs ++ rest) =
        (percentDecodeBytes rest).map (fun t => bs ++ t)
  | [], rest, _ => by
      cases h : percentDecodeBytes rest <;> simp [pctBytes, h]
  | b :: bs, rest, h => by
      have hb := h b (by simp)
      have ih := percentDecodeBytes_pctBytes bs rest (fun u hu => h u (by simp [hu]))
      have h1 : hexVal (hexDigitChar (b / 16)) = some (b / 16) :=
        hexVal_hexDigitChar _ (by omega)
      have h2 : hexVal (hexDigitChar (b % 16)) = some (b % 16) :=
        hexVal_hexDigitChar _ (by omega)
      have hre : 16 * (b / 16) + b % 16 = b := by omega
      simp only [pctBytes, percentEncodeByte, List.cons_append, List.nil_append]
      simp only [percentDecodeBytes, if_pos rfl, h1, h2, ih, hre]
      cases hr : percentDecodeBytes rest <;> simp [hr]

theorem isUnreserved_lt (c : Nat) (h : isUnreserved c = true) : c < 128 := by
  simp only [isUnreserved, decide_eq_true_eq] at h
  rcases h with h | h | h | h | h | h | h | h | h | h | h | h <;> omega

theorem utf8EncodeChar_lt256 (c : Nat) (h : c < 1114112) :
    ∀ b ∈ utf8EncodeChar c, b < 256 := by
  intro b hb
  unfold utf8EncodeChar at hb
  split_ifs at hb <;> simp only [List.mem_cons, List.not_mem_nil, or_false] at hb <;>
    rcases hb with h1 | h1 | h1 | h1 <;> omega

theorem hexDigitChar_lt128 (n : Nat) (h : n < 16) : hexDigitChar n < 128 := by
  unfold hexDigitChar
  split <;> omega

theorem pctBytes_lt128 :
    ∀ bs : List Nat, (∀ x ∈ bs, x < 256) → ∀ b ∈ pctBytes bs, b < 128
  | [], _, b, hb => by simp [pctBytes] at hb
  | x :: bs, h, b, hb => by
      have hx := h x (by simp)
      have ih := pctBytes_lt128 bs (fun u hu => h u (by simp [hu]))
      simp only [pctBytes, percentEncodeByte, List.cons_append, List.nil_append,
        List.mem_cons] at hb
      rcases hb with h1 | h1 | h1 | h1
      · omega
      · have := hexDigitChar_lt128 (x / 16) (by omega); omega
      · have := hexDigitChar_lt128 (x % 16) (by omega); omega
      · exact ih b h1

theorem percentEncode_ascii :
    ∀ p : List Nat, ValidPath p → ∀ b ∈ percentEncode p, b < 128
  | [], _, b, hb => by simp [percentEncode] at hb
  | c :: rest, h, b, hb => by
      obtain ⟨hc1, _⟩ := h c (by simp)
      have ih := percentEncode_ascii rest (fun u hu => h u (by simp [hu]))
      simp only [percentEncode, List.mem_append] at hb
      rcases hb with h1 | h1
      · by_cases hu : isUnreserved c
        · simp only [hu, if_true, List.mem_cons, List.not_mem_nil, or_false] at h1
          have := isUnreserved_lt c hu
          omega
        · simp only [hu, if_false] at h1
          exact pctBytes_lt128 (utf8EncodeChar c) (utf8EncodeChar_lt256 c hc1) b h1
      · exact ih b h1

theorem percentDecode_percentEncode :
    ∀ p : List Nat, ValidPath p → percentDecodeBytes (percentEncode p) = some (utf8Encode p)
  | [], _ => rfl
  | c :: rest, h => by
      obtain ⟨hc1, _⟩ := h c (by simp)
      have ih := percentDecode_percentEncode rest (fun u hu => h u (by simp [hu]))
      by_cases hu : isUnreserved c
      · have hc37 : ¬(c = 37) := by
          intro e
          rw [e] at hu
          exact absurd hu (by decide)
        have hpe : percentEncode (c :: rest) = c :: percentEncode rest := by
          simp [percentEncode, hu]
        rw [hpe, percentDecodeBytes.eq_def]
        simp only [hc37, if_false, ih, utf8Encode]
      · have hpe : percentEncode (c :: rest) =
            pctBytes (utf8EncodeChar c) ++ percentEncode rest := by
          simp [percentEncode, hu]
        rw [hpe, percentDecodeBytes_pctBytes _ _ (utf8EncodeChar_lt256 c hc1), ih]
        simp [utf8Encode]

theorem utf8Step_encodeChar (c : Nat) (h1 : c < 1114112) (h2 : ¬(55296 ≤ c ∧ c < 57344))
    (rest : List Nat) :
    ∃ b tail, utf8EncodeChar c = b :: tail ∧ utf8Step b (tail ++ rest) = some (c, rest) := by
  by_cases ha : c < 128
  · exact ⟨c, [], by simp [utf8EncodeChar, ha], by simpa using utf8Step_ascii c ha rest⟩
  · by_cases hb : c < 2048
    · refine ⟨192 + c / 64, [128 + c % 64], by simp [utf8EncodeChar, ha, hb], ?_⟩
      have f1 : ¬(192 + c / 64 < 128) := by omega
      have f2 : ¬(192 + c / 64 < 192) := by omega
      have f3 : 192 + c / 64 < 224 := by omega
      have f4 : 128 ≤ 128 + c % 64 ∧ 128 + c % 64 < 192 := by omega
      have f5 : ¬((192 + c / 64 - 192) * 64 + (128 + c % 64 - 128) < 128) := by omega
      have f6 : (192 + c / 64 - 192) * 64 + (128 + c % 64 - 128) = c := by omega
      simp only [List.cons_append, List.nil_append, utf8Step, f1, if_false, f2, f3, if_true,
        f4, f5, f6]
      simp [ha]
    · by_cases hc : c < 65536
      · refine ⟨224 + c / 4096, [128 + c / 64 % 64, 128 + c % 64],
          by simp [utf8EncodeChar, ha, hb, hc], ?_⟩
        have f1 : ¬(224 + c / 4096 < 128) := by omega
        have f2 : ¬(224 + c / 4096 < 192) := by omega
        have f3 : ¬(224 + c / 4096 < 224) := by omega
        have f4 : 224 + c / 4096 < 240 := by omega
        have f5 : (128 ≤ 128 + c / 64 % 64 ∧ 128 + c / 64 % 64 < 192) ∧
            (128 ≤ 128 + c % 64 ∧ 128 + c % 64 < 192) := by omega
        have f6 : (224 + c / 4096 - 224) * 4096 + (128 + c / 64 % 64 - 128) * 64 +
            (128 + c % 64 - 128) = c := by omega
        have f7 : ¬((224 + c / 4096 - 224) * 4096 + (128 + c / 64 % 64 - 128) * 64 +
            (128 + c % 64 - 128) < 2048 ∨
            (55296 ≤ (224 + c / 4096 - 224) * 4096 + (128 + c / 64 % 64 - 128) * 64 +
              (128 + c % 64 - 128) ∧
              (224 + c / 4096 - 224) * 4096 + (128 + c / 64 % 64 - 128) * 64 +
                (128 + c % 64 - 128) < 57344)) := by
          rw [f6]
          omega
        simp only [List.cons_append, List.nil_append, utf8Step, f1, if_false, f2, f3, f4,
          if_true, f5, f7, f6]
        have g : ¬(c < 2048 ∨ (55296 ≤ c ∧ c < 57344)) := by omega
        simp [g]
      · refine ⟨240 + c / 262144, [128 + c / 4096 % 64, 128 + c / 64 % 64, 128 + c % 64],
          by simp [utf8EncodeChar, ha, hb, hc], ?_⟩
        have f1 : ¬(240 + c / 262144 < 128) := by omega
        have f2 : ¬(240 + c / 262144 < 192) := by omega
        have f3 : ¬(240 + c / 262144 < 224) := by omega
        have f4 : ¬(240 + c / 262144 < 240) := by omega
        have f5 : 240 + c / 262144 < 248 := by omega
        have f6 : (128 ≤ 128 + c / 4096 % 64 ∧ 128 + c / 4096 % 64 < 192) ∧
            (128 ≤ 128 + c / 64 % 64 ∧ 128 + c / 64 % 64 < 192) ∧
            (128 ≤ 128 + c % 64 ∧ 128 + c % 64 < 192) := by omega
        have f7 : (240 + c / 262144 - 240) * 262144 + (128 + c / 4096 % 64 - 128) * 4096 +
            (128 + c / 64 % 64 - 128) * 64 + (128 + c % 64 - 128) = c := by omega
        have f8 : ¬((240 + c / 262144 - 240) * 262144 + (128 + c / 4096 % 64 - 128) * 4096 +
            (128 + c / 64 % 64 - 128) * 64 + (128 + c % 64 - 128) < 65536 ∨
            1114112 ≤ (240 + c / 262144 - 240) * 262144 + (128 + c / 4096 % 64 - 128) * 4096 +
              (128 + c / 64 % 64 - 128) * 64 + (128 + c % 64 - 128)) := by
          rw [f7]
          omega
        simp only [List.cons_append, List.nil_append, utf8Step, f1, if_false, f2, f3, f4, f5,
          if_true, f6, f8, f7]
        have g : ¬(c < 65536 ∨ 1114112 ≤ c) := by omega
        simp [g]

theorem utf8DecodeAux_encode :
    ∀ fuel : Nat, ∀ p : List Nat, ValidPath p → p.length ≤ fuel →
      utf8DecodeAux fuel (utf8Encode p) = some p
  | fuel, [], _, _ => by cases fuel <;> rfl
  | 0, c :: rest, _, hl => by simp at hl
  | fuel + 1, c :: rest, h, hl => by
      obtain ⟨h1, h2⟩ := h c (by simp)
      obtain ⟨b, tail, he, hs⟩ := utf8Step_encodeChar c h1 h2 (utf8Encode rest)
      have ih := utf8DecodeAux_encode fuel rest (fun u hu => h u (by simp [hu]))
        (by simp at hl; omega)
      simp only [utf8Encode, he, List.cons_append, utf8DecodeAux, hs, ih]

theorem utf8EncodeChar_length_pos (c : Nat) : 1 ≤ (utf8EncodeChar c).length := by
  unfold utf8EncodeChar
  split_ifs <;> simp

theorem utf8Encode_length : ∀ p : List Nat, p.length ≤ (utf8Encode p).length
  | [] => by simp [utf8Encode]
  | c :: rest => by
      have ih := utf8Encode_length rest
      have := utf8EncodeChar_length_pos c
      simp only [utf8Encode, List.length_append, List.length_cons]
      omega

theorem utf8Decode_utf8Encode (p : List Nat) (hv : ValidPath p) :
    utf8Decode (utf8Encode p) = some p :=
  utf8DecodeAux_encode (utf8Encode p).length p hv (utf8Encode_length p)

/-- C3: for every valid path `p`, decoding the room name obtained by encoding
`p` returns `p` exactly — encoding is UTF-8 encode, percent-encode, then
base64url encode without padding, and `roomToPath` restores padding by length
mod 4, base64-decodes, interprets the bytes as UTF-8, and URI-decodes. -/
theorem c3_room_name_roundtrip (p : List Nat) (hv : ValidPath p) :
    roomToPath (pathToRoom p) = some p := by
  have hascii : ∀ b ∈ percentEncode p, b < 128 := percentEncode_ascii p hv
  have h256 : ∀ b ∈ percentEncode p, b < 256 := fun b hb => by
    have := hascii b hb
    omega
  have h64 : ∀ v ∈ sextets (percentEncode p), v < 64 := sextets_lt64 _ h256
  simp only [roomToPath, pathToRoom, List.map_map]
  rw [show (replDash ∘ b64urlCharOfSextet) = (fun v => replDash (b64urlCharOfSextet v))
    from rfl]
  rw [takeB64_encoded _ _ h64, bytesOfSextets_sextets _ h256,
    utf8DecodeReplace_ascii _ hascii]
  simp only [decodeURIComponent]
  rw [percentDecode_percentEncode p hv]
  exact utf8Decode_utf8Encode p hv

/-- Witness for C3 at the concrete path `foo.md`. -/
theorem c3_room_name_roundtrip_witness :
    ValidPath [102, 111, 111, 46, 109, 100] ∧
      roomToPath (pathToRoom [102, 111, 111, 46, 109, 100]) =
        some [102, 111, 111, 46, 109, 100] :=
  ⟨(by decide :
      ∀ c ∈ [102, 111, 111, 46, 109, 100], c < 1114112 ∧ ¬(55296 ≤ c ∧ c < 57344)),
    c3_room_name_roundtrip [102, 111, 111, 46, 109, 100]
      (by decide :
        ∀ c ∈ [102, 111, 111, 46, 109, 100], c < 1114112 ∧ ¬(55296 ≤ c ∧ c < 57344))⟩

/-- C9 counterexample: with the store holding exactly the three keys of the
scenario, the listing is `["", "foo.md"]`, not `["foo.md"]` — Node's lenient
base64 decoding maps the room `%%%` to the empty path instead of throwing,
so the key is included rather than skipped. -/
theorem c9_files_listing_counterexample :
    filesOf [keyPct, keyFoo, keyIdx] = [[], fooPath] ∧
      filesOf [keyPct, keyFoo, keyIdx] ≠ [fooPath] := by
  constructor
  · decide
  · decide

/-- C9 amended: on the scenario store the listing is `["", "foo.md"]` — the
index key is excluded, `yjs/%%%.yjs` decodes (leniently) to the empty path
and is included — and a key whose decoding does throw, such as `yjs/JQ.yjs`,
is silently skipped without aborting the listing. -/
theorem c9_files_listing_amended :
    filesOf [keyPct, keyFoo, keyIdx] = [[], fooPath] ∧
      filesOf [keyPct, keyJQ, keyFoo, keyIdx] = [[], fooPath] := by
  constructor
  · decide
  · decide

theorem scanIndex_statted (stat : List Nat → StatRes) :
    ∀ idx, (scanIndex stat idx).1 =
      (idx.filter (fun e => decide (¬ e.2.type = some "folder"))).map (fun e => minioKey e.1)
  | [] => rfl
  | e :: rest => by
      have ih := scanIndex_statted stat rest
      by_cases hf : e.2.type = some "folder"
      · simp [scanIndex, hf, ih]
      · cases hs : stat (minioKey e.1) <;> simp [scanIndex, hf, hs, ih]

theorem scanIndex_not_orphan (stat : List Nat → StatRes) (k : List Nat)
    (hne : ¬ stat (minioKey k) = StatRes.notFound) :
    ∀ idx, ¬ k ∈ (scanIndex stat idx).2
  | [] => by simp [scanIndex]
  | e :: rest => by
      have ih := scanIndex_not_orphan stat k hne rest
      by_cases hf : e.2.type = some "folder"
      · simpa [scanIndex, hf] using ih
      · cases hs : stat (minioKey e.1) with
        | notFound =>
            simp only [scanIndex, hs]
            rw [if_neg hf]
            simp only [List.mem_cons, not_or]
            refine ⟨fun he => ?_, ih⟩
            rw [he] at hne
            exact hne hs
        | found =>
            simp only [scanIndex, hs]
            rw [if_neg hf]
            exact ih
        | otherErr =>
            simp only [scanIndex, hs]
            rw [if_neg hf]
            exact ih

/-- C5: reconciling the index with entries a: file, b: file, c: folder, where
only b's backing object exists, removes a, keeps b and c, and applies the
deletions in exactly one transactional mutation; and in general only
non-folder entries are ever statted against storage. -/
theorem c5_reconcile_scenario :
    (validateFileIndex statC5 idxC5).index = [([98], fileT), ([99], folderT)] ∧
    (validateFileIndex statC5 idxC5).txns = 1 ∧
    (validateFileIndex statC5 idxC5).statted = [minioKey [97], minioKey [98]] ∧
    (∀ stat : List Nat → StatRes, ∀ idx : List (List Nat × FEntry),
      (validateFileIndex stat idx).statted =
        (idx.filter (fun e => decide (¬ e.2.type = some "folder"))).map (fun e => minioKey e.1)) := by
  refine ⟨by decide, by decide, by decide, ?_⟩
  intro stat idx
  exact scanIndex_statted stat idx

/-- C6: an entry whose stat fails with an error other than not-found is never
collected as an orphan and survives reconciliation untouched. -/
theorem c6_transient_error_keeps_entry (stat : List Nat → StatRes)
    (idx : List (List Nat × FEntry)) (k : List Nat) (m : FEntry)
    (hmem : (k, m) ∈ idx) (hnf : ¬ m.type = some "folder")
    (herr : stat (minioKey k) = StatRes.otherErr) :
    ¬ k ∈ (scanIndex stat idx).2 ∧ (k, m) ∈ (validateFileIndex stat idx).index := by
  have hne : ¬ stat (minioKey k) = StatRes.notFound := by
    rw [herr]
    intro h
    cases h
  have hno : ¬ k ∈ (scanIndex stat idx).2 := scanIndex_not_orphan stat k hne idx
  refine ⟨hno, ?_⟩
  simp only [validateFileIndex]
  rw [List.mem_filter]
  exact ⟨hmem, by simp [hno]⟩

/-- Witness for C6 at a concrete one-entry index under a transient error. -/
theorem c6_transient_error_keeps_entry_witness :
    (([97], fileT) ∈ idxC6 ∧ ¬ fileT.type = some "folder" ∧
      statErrAll (minioKey [97]) = StatRes.otherErr) ∧
    (¬ [97] ∈ (scanIndex statErrAll idxC6).2 ∧
      ([97], fileT) ∈ (validateFileIndex statErrAll idxC6).index) :=
  ⟨⟨by decide, by decide, rfl⟩,
    c6_transient_error_keeps_entry statErrAll idxC6 [97] fileT (by decide) (by decide) rfl⟩

/-- C4: scheduling two saves of `d` within one 3000 ms debounce window
yields exactly one store write, and that write reflects the document state
after the later mutation: the second schedule cancels the first timer and
starts a new one (deadline `t1 + 3000`), an event-loop visit between the
two mutations fires nothing, and the single write at the new deadline
persists `doc2`. -/
theorem c4_debounce_single_write (d : String) (doc1 doc2 : Doc) (t0 tm t1 t2 : Nat)
    (o : SaveOutcome)
    (h01 : t0 ≤ tm) (hm1 : tm ≤ t1) (h1w : t1 < t0 + 3000) (h2w : t1 + 3000 ≤ t2) :
    (runEvs initState [Ev.update t0 d doc1, Ev.fire tm d o, Ev.update t1 d doc2]).timers d
        = some (t1 + 3000) ∧
    (runEvs initState [Ev.update t0 d doc1, Ev.fire tm d o, Ev.update t1 d doc2,
        Ev.fire t2 d SaveOutcome.ok]).log = [StoreAction.put (yjsKey d) doc2.enc] ∧
    (runEvs initState [Ev.update t0 d doc1, Ev.fire tm d o, Ev.update t1 d doc2,
        Ev.fire t2 d SaveOutcome.ok]).store (yjsKey d) = some doc2.enc ∧
    (runEvs initState [Ev.update t0 d doc1, Ev.fire tm d o, Ev.update t1 d doc2,
        Ev.fire t2 d SaveOutcome.ok]).timers d = none := by
  have hA : ¬ (t0 + 3000 ≤ tm) := by omega
  have hB : t1 + 3000 ≤ t2 := by omega
  refine ⟨?_, ?_, ?_, ?_⟩ <;>
    simp [runEvs, stepEv, debouncedSave, saveToMinIO, initState, SAVE_DEBOUNCE_MS, hA, hB]

/-- C4 witness at a concrete schedule (mutations at 0 and 1000, an idle
event-loop visit at 500, the timer firing at 4000). -/
theorem c4_debounce_single_write_witness :
    ((0 : Nat) ≤ 500 ∧ (500 : Nat) ≤ 1000 ∧ (1000 : Nat) < 0 + 3000 ∧
      (1000 : Nat) + 3000 ≤ 4000) ∧
    (runEvs initState [Ev.update 0 "d" ⟨[], [1]⟩, Ev.fire 500 "d" SaveOutcome.ok,
        Ev.update 1000 "d" ⟨[], [2]⟩, Ev.fire 4000 "d" SaveOutcome.ok]).log
      = [StoreAction.put (yjsKey "d") (⟨[], [2]⟩ : Doc).enc] :=
  ⟨⟨by omega, by omega, by omega, by omega⟩,
    (c4_debounce_single_write "d" ⟨[], [1]⟩ ⟨[], [2]⟩ 0 500 1000 4000 SaveOutcome.ok
      (by omega) (by omega) (by omega) (by omega)).2.1⟩

/-- C7: when a save for `d` is in flight (its lock entry is set), a second
`saveToMinIO` call for `d` returns with the state unchanged: nothing is
written, no state is modified, and — being a total function modelling a
body whose errors are all caught — it does not throw. -/
theorem c7_inflight_save_noop (d : String) (doc : Doc) (o : SaveOutcome) (st : SrvState)
    (h : st.locks d = true) :
    saveToMinIO d doc o st = st := by
  simp [ saveToMinIO, h]

/-- Witness for C7 at the concrete in-flight state. -/
theorem c7_inflight_save_noop_witness :
    stLocked.locks "d" = true ∧
      saveToMinIO "d" ⟨[], [2]⟩ SaveOutcome.ok stLocked = stLocked :=
  ⟨rfl, c7_inflight_save_noop "d" ⟨[], [2]⟩ SaveOutcome.ok stLocked rfl⟩

theorem filter_removeFirst_pos :
    ∀ (l : List (String × List Nat)) (q : String × List Nat) (p : String × List Nat → Bool),
      q ∈ l → p q = true →
      ((removeFirst q l).filter p).length + 1 = (l.filter p).length
  | [], q, p, hq, _ => by simp at hq
  | x :: rest, q, p, hq, hp => by
      by_cases hx : x = q
      · subst hx
        simp [removeFirst, List.filter_cons, hp]
      · have hq2 : q ∈ rest := by
          rcases List.mem_cons.1 hq with h | h
          · exact absurd h.symm hx
          · exact h
        have ih := filter_removeFirst_pos rest q p hq2 hp
        by_cases hpx : p x = true
        · simp only [removeFirst, if_neg hx, List.filter_cons, hpx, if_true]
          simp only [List.length_cons]
          omega
        · simp only [removeFirst, if_neg hx, List.filter_cons, hpx]
          simpa using ih

theorem filter_removeFirst_neg :
    ∀ (l : List (String × List Nat)) (q : String × List Nat) (p : String × List Nat → Bool),
      p q = false →
      (removeFirst q l).filter p = l.filter p
  | [], _, _, _ => rfl
  | x :: rest, q, p, hp => by
      have ih := filter_removeFirst_neg rest q p hp
      by_cases hx : x = q
      · subst hx
        simp [removeFirst, List.filter_cons, hp]
      · by_cases hpx : p x = true <;>
          simp [removeFirst, hx, List.filter_cons, hpx, ih]

theorem inFlightL_append (d : String) (l1 l2 : List (String × List Nat)) :
    inFlightL d (l1 ++ l2) = inFlightL d l1 + inFlightL d l2 := by
  simp [inFlightL]

theorem saveBegin_inv (d : String) (st : SrvState) (h : SaveInv st) :
    SaveInv (saveBegin d st) := by
  by_cases hl : st.locks d = true
  · simpa [saveBegin, hl] using h
  · have hl2 : st.locks d = false := by simpa using hl
    have hz : inFlight d st = 0 := by
      have hle := (h d).1
      have hiff := (h d).2
      by_cases h1 : inFlight d st = 1
      · exact absurd (hiff.2 h1) hl
      · omega
    have hbe : saveBegin d st =
        { st with
            locks := fun x => if x = d then true else st.locks x,
            pending := st.pending ++ [(d, (st.docs d).enc)] } := by
      simp [saveBegin, hl2]
    rw [hbe]
    intro e
    by_cases he : e = d
    · subst he
      have hcnt : inFlightL e (st.pending ++ [(e, (st.docs e).enc)]) = 1 := by
        rw [inFlightL_append]
        have : inFlightL e [(e, (st.docs e).enc)] = 1 := by simp [inFlightL]
        have hz2 : inFlightL e st.pending = 0 := hz
        omega
      refine ⟨by simpa [inFlight] using Nat.le_of_eq hcnt, ?_⟩
      constructor
      · intro _
        simpa [inFlight] using hcnt
      · intro _
        simp
    · have hcnt : inFlightL e (st.pending ++ [(d, (st.docs d).enc)]) =
          inFlightL e st.pending := by
        rw [inFlightL_append]
        have : inFlightL e [(d, (st.docs d).enc)] = 0 := by simp [inFlightL, Ne.symm he, he]
        omega
      have hprev := h e
      refine ⟨by simpa [inFlight, hcnt] using hprev.1, ?_⟩
      have hlk : (fun x => if x = d then true else st.locks x) e = st.locks e := by
        simp [he]
      constructor
      · intro hev
        have : st.locks e = true := by simpa [hlk] using hev
        simpa [inFlight, hcnt] using hprev.2.1 this
      · intro hev
        have : inFlight e st = 1 := by simpa [inFlight, hcnt] using hev
        simpa [hlk] using hprev.2.2 this

theorem saveFinish_inv (d : String) (buf : List Nat) (o : SaveOutcome) (st : SrvState)
    (hmem : (d, buf) ∈ st.pending) (h : SaveInv st) :
    SaveInv (saveFinish d buf o st) := by
  have hpend : (saveFinish d buf o st).pending = removeFirst (d, buf) st.pending := by
    cases o <;> rfl
  have hlk : ∀ e, (saveFinish d buf o st).locks e =
      (if e = d then false else st.locks e) := by
    intro e
    cases o <;> rfl
  have hone : inFlightL d st.pending = 1 := by
    have hge : 1 ≤ inFlightL d st.pending := by
      have hmf : (d, buf) ∈ st.pending.filter (fun q => decide (q.1 = d)) :=
        List.mem_filter.2 ⟨hmem, by simp⟩
      have := List.length_pos.2 (List.ne_nil_of_mem hmf)
      simpa [inFlightL] using this
    have hle := (h d).1
    have : inFlight d st ≤ 1 := hle
    simp only [inFlight] at this
    omega
  intro e
  by_cases he : e = d
  · subst he
    have hcnt : inFlightL e (removeFirst (e, buf) st.pending) = 0 := by
      have := filter_removeFirst_pos st.pending (e, buf)
        (fun q => decide (q.1 = e)) hmem (by simp)
      simp only [inFlightL] at hone ⊢
      omega
    refine ⟨?_, ?_⟩
    · simp [inFlight, hpend, hcnt]
    · constructor
      · intro hev
        rw [hlk e] at hev
        simp at hev
      · intro hev
        rw [inFlight, hpend, hcnt] at hev
        cases hev
  · have hcnt : inFlightL e (removeFirst (d, buf) st.pending) = inFlightL e st.pending := by
      simp only [inFlightL]
      rw [filter_removeFirst_neg st.pending (d, buf) _ (by simp [Ne.symm he, he])]
    have hprev := h e
    refine ⟨by simpa [inFlight, hpend, hcnt] using hprev.1, ?_⟩
    rw [hlk e, if_neg he]
    rw [inFlight, hpend, hcnt]
    exact hprev.2

theorem step_preserves_inv (st st2 : SrvState) (h : Step st st2) (hinv : SaveInv st) :
    SaveInv st2 := by
  cases h with
  | mutate d doc => exact hinv
  | reconcile d doc => exact hinv
  | fire d tf h1 h2 => exact saveBegin_inv d _ hinv
  | beginWrite d => exact saveBegin_inv d st hinv
  | finish d buf o hmem => exact saveFinish_inv d buf o st hmem hinv
  | tick t ht => exact hinv
  | bindLoad d => exact hinv

theorem reachable_inv (st : SrvState) (h : Reachable st) : SaveInv st := by
  induction h with
  | refl =>
      intro d
      refine ⟨by simp [inFlight, inFlightL, initState], ?_⟩
      simp [initState, inFlight, inFlightL]
  | tail h1 h2 ih => exact step_preserves_inv _ _ h2 ih

/-- C8: in every reachable state, at most one save per document name is in
flight, absence of the lock entry is equivalent to no save being in flight,
and completing a save attempt — whether the write succeeded or failed —
removes the lock entry. -/
theorem c8_mutual_exclusion (st : SrvState) (h : Reachable st) (d : String) :
    inFlight d st ≤ 1 ∧ (st.locks d = false ↔ inFlight d st = 0) ∧
      (∀ buf o, (saveFinish d buf o st).locks d = false) := by
  obtain ⟨hle, hiff⟩ := reachable_inv st h d
  refine ⟨hle, ?_, ?_⟩
  · constructor
    · intro hf
      by_cases h1 : inFlight d st = 1
      · rw [hiff.2 h1] at hf
        cases hf
      · omega
    · intro h0
      by_cases hl : st.locks d = true
      · have := hiff.1 hl
        omega
      · simpa using hl
  · intro buf o
    cases o <;> simp [saveFinish]

/-- Witness for C8 at the startup state and name `a`. -/
theorem c8_mutual_exclusion_witness :
    Reachable initState ∧ inFlight "a" initState ≤ 1 ∧
      (initState.locks "a" = false ↔ inFlight "a" initState = 0) ∧
      (saveFinish "a" [7] SaveOutcome.err initState).locks "a" = false :=
  ⟨Relation.ReflTransGen.refl,
    (c8_mutual_exclusion initState Relation.ReflTransGen.refl "a").1,
    (c8_mutual_exclusion initState Relation.ReflTransGen.refl "a").2.1,
    (c8_mutual_exclusion initState Relation.ReflTransGen.refl "a").2.2 [7] SaveOutcome.err⟩

theorem saveBegin_store (d : String) (st : SrvState) : (saveBegin d st).store = st.store := by
  unfold saveBegin
  split <;> rfl

theorem step_store_mono (st st2 : SrvState) (h : Step st st2) (k : String) (v : List Nat)
    (hk : st.store k = some v) : ∃ w, st2.store k = some w := by
  cases h with
  | mutate d doc => exact ⟨v, hk⟩
  | reconcile d doc => exact ⟨v, hk⟩
  | fire d tf h1 h2 =>
      refine ⟨v, ?_⟩
      rw [saveBegin_store]
      exact hk
  | beginWrite d =>
      refine ⟨v, ?_⟩
      rw [saveBegin_store]
      exact hk
  | finish d buf o hmem =>
      cases o with
      | ok =>
          by_cases hke : k = yjsKey d
          · exact ⟨buf, by simp [saveFinish, hke]⟩
          · exact ⟨v, by simpa [saveFinish, hke] using hk⟩
      | err => exact ⟨v, hk⟩
  | tick t ht => exact ⟨v, hk⟩
  | bindLoad d => exact ⟨v, hk⟩

/-- C2: once a snapshot object exists in the store, no sequence of core
operations — mutation plus debounced scheduling, timer-fired saves,
`writeState`, `bindState` loads, reconciliation — ever deletes it: every
step of the core either leaves the store untouched or overwrites or creates
an object, so the key stays populated. -/
theorem c2_snapshots_never_deleted (st st2 : SrvState)
    (h : Relation.ReflTransGen Step st st2) (k : String) (v : List Nat)
    (hk : st.store k = some v) : ∃ w, st2.store k = some w := by
  induction h with
  | refl => exact ⟨v, hk⟩
  | tail h1 h2 ih =>
      obtain ⟨w, hw⟩ := ih
      exact step_store_mono _ _ h2 k w hw

/-- Witness for C2: after a mutation-and-schedule step, the object is still
present. -/
theorem c2_snapshots_never_deleted_witness :
    stC2.store (yjsKey "a") = some [1] ∧
      ∃ w, (debouncedSave "a"
          { stC2 with docs := fun x => if x = "a" then ⟨[], [2]⟩ else stC2.docs x }).store
            (yjsKey "a") = some w :=
  ⟨rfl, c2_snapshots_never_deleted stC2 _
      (Relation.ReflTransGen.single (Step.mutate stC2 "a" ⟨[], [2]⟩)) (yjsKey "a") [1] rfl⟩

/-- C1 counterexample: with a save for `d` already in flight (lock held,
stale snapshot `[1]` parked at its await) and the live document now encoding
`[2]`, an awaited `writeState` call completes as a pure no-op — nothing is
written, nothing is queued — and when the in-flight save then completes,
the persisted snapshot is the stale `[1]`, not the current `[2]`.  So
awaiting `writeState`'s completion does not suffice to have the current
state written, and no fresh snapshot is taken once the lock is free. -/
theorem c1_writestate_counterexample :
    writeState "d" (stLocked.docs "d") SaveOutcome.ok stLocked = stLocked ∧
    (writeState "d" (stLocked.docs "d") SaveOutcome.ok stLocked).store (yjsKey "d") = none ∧
    (writeState "d" (stLocked.docs "d") SaveOutcome.ok stLocked).log = [] ∧
    (saveFinish "d" [1] SaveOutcome.ok
        (writeState "d" (stLocked.docs "d") SaveOutcome.ok stLocked)).store
      (yjsKey "d") = some [1] ∧
    (saveFinish "d" [1] SaveOutcome.ok
        (writeState "d" (stLocked.docs "d") SaveOutcome.ok stLocked)).pending = [] ∧
    (saveFinish "d" [1] SaveOutcome.ok
        (writeState "d" (stLocked.docs "d") SaveOutcome.ok stLocked)).timers "d" = none ∧
    (stLocked.docs "d").enc = [2] ∧ ¬ (([1] : List Nat) = [2]) := by
  have h : writeState "d" (stLocked.docs "d") SaveOutcome.ok stLocked = stLocked := by
    simp [writeState, saveToMinIO, stLocked]
  refine ⟨h, ?_, ?_, ?_, ?_, ?_, rfl, by decide⟩ <;> rw [h] <;> rfl

/-- C1 amended: `writeState` forces an immediate save that bypasses the
debounce window (no timer is consulted, started or cancelled); but when a
save for that name is already in flight, it returns as a no-op without
persisting or queuing anything — awaiting its completion guarantees the
current snapshot is persisted only when no save was in flight. -/
theorem c1_writestate_amended (d : String) (doc : Doc) (st : SrvState) :
    (st.locks d = false →
      (writeState d doc SaveOutcome.ok st).store (yjsKey d) = some doc.enc ∧
      (writeState d doc SaveOutcome.ok st).log
        = st.log ++ [StoreAction.put (yjsKey d) doc.enc] ∧
      (writeState d doc SaveOutcome.ok st).timers = st.timers) ∧
    (st.locks d = true → writeState d doc SaveOutcome.ok st = st) := by
  constructor
  · intro hl
    refine ⟨?_, ?_, ?_⟩ <;> simp [writeState, saveToMinIO, hl]
  · intro hl
    simp [writeState, saveToMinIO, hl]

/-- Witness for the amended C1 from the startup state. -/
theorem c1_writestate_amended_witness :
    initState.locks "d" = false ∧
      (writeState "d" ⟨[], [3]⟩ SaveOutcome.ok initState).store (yjsKey "d") = some [3] :=
  ⟨rfl, ((c1_writestate_amended "d" ⟨[], [3]⟩ initState).1 rfl).1⟩

/-- C10: in the deleting variant, the reserved file index document is exempt
from the empty-document deletion: a save of `__file_index__` never removes
its backing object (a stored snapshot stays stored under every outcome) and
only ever appends a put to the store log, and when no save is in flight and
the put succeeds it writes the snapshot — even when the document's
`content` text is empty. -/
theorem c10_variant0_index_exempt (doc : Doc) (o ro : SaveOutcome) (st : SrvState) :
    ((Variant0.saveToMinIO "__file_index__" doc o ro st).log = st.log ∨
      (Variant0.saveToMinIO "__file_index__" doc o ro st).log =
        st.log ++ [StoreAction.put (yjsKey "__file_index__") doc.enc]) ∧
    (∀ v, st.store (yjsKey "__file_index__") = some v →
      ∃ w, (Variant0.saveToMinIO "__file_index__" doc o ro st).store
          (yjsKey "__file_index__") = some w) ∧
    (st.locks "__file_index__" = false → o = SaveOutcome.ok →
      (Variant0.saveToMinIO "__file_index__" doc o ro st).store
          (yjsKey "__file_index__") = some doc.enc) := by
  have hidx : ¬ (doc.content = [] ∧ ¬ ("__file_index__" = "__file_index__")) := by simp
  by_cases hl : st.locks "__file_index__" = true
  · have he : Variant0.saveToMinIO "__file_index__" doc o ro st = st := by
      simp [ Variant0.saveToMinIO, hl]
    rw [he]
    refine ⟨Or.inl rfl, fun v hv => ⟨v, hv⟩, fun hf _ => ?_⟩
    rw [hf] at hl
    cases hl
  · have hl2 : st.locks "__file_index__" = false := by simpa using hl
    cases o with
    | ok =>
        have he : Variant0.saveToMinIO "__file_index__" doc SaveOutcome.ok ro st =
            { st with
                store := fun k => if k = yjsKey "__file_index__" then some doc.enc
                  else st.store k,
                log := st.log ++ [StoreAction.put (yjsKey "__file_index__") doc.enc] } := by
          simp [ Variant0.saveToMinIO, hl2, hidx]
        rw [he]
        exact ⟨Or.inr rfl, fun v _ => ⟨doc.enc, by simp⟩, fun _ _ => by simp⟩
    | err =>
        have he : Variant0.saveToMinIO "__file_index__" doc SaveOutcome.err ro st = st := by
          simp [ Variant0.saveToMinIO, hl2, hidx]
        rw [he]
        refine ⟨Or.inl rfl, fun v hv => ⟨v, hv⟩, fun _ hne => ?_⟩
        cases hne

/-- Witness for C10: from the startup state, saving the empty-content index
document writes its snapshot. -/
theorem c10_variant0_index_exempt_witness :
    initState.locks "__file_index__" = false ∧
      (Variant0.saveToMinIO "__file_index__" docC10 SaveOutcome.ok SaveOutcome.ok
          initState).store (yjsKey "__file_index__") = some [7] :=
  ⟨rfl,
    (c10_variant0_index_exempt docC10 SaveOutcome.ok SaveOutcome.ok initState).2.2 rfl rfl⟩
